import Mathlib

/-!
Verification of the patch applier in `admin_rescue_v23.1.patcher.py`.

A line of text is modelled as a `List Char` (Python string, terminator
included).  The Python string operations used by `apply_patch` are modelled
faithfully below (`str.split` with a maxsplit, `str.strip`, `str.lstrip`,
`int(...)`), and the two nested `while` loops of `apply_patch` are modelled
as the structurally recursive interpreter `applyAux`.
-/

/-- A line of text, terminator included: a Python string as a list of chars. -/
abbrev Line := List Char

/-- Python whitespace characters recognised by `str.strip()` (ASCII part). -/
def isPyWS (c : Char) : Bool :=
  c = ' ' || c = '\t' || c = '\n' || c = '\r' || c = '\x0b' || c = '\x0c'

/-- Python `s.strip()`: drop whitespace from both ends. -/
def pyStrip (cs : Line) : Line :=
  ((cs.dropWhile isPyWS).reverse.dropWhile isPyWS).reverse

/-- Find the leftmost occurrence of `sep` in `cs`; return the text before it
and the text after it, or `none` when `sep` does not occur. -/
def splitOnceSub (sep : List Char) : List Char → Option (List Char × List Char)
  | [] => if sep.isEmpty then some ([], []) else none
  | c :: rest =>
    if sep.isPrefixOf (c :: rest) then some ([], (c :: rest).drop sep.length)
    else
      match splitOnceSub sep rest with
      | some (pre, post) => some (c :: pre, post)
      | none => none

/-- Python `s.split(sep, maxsplit)`: split on non-overlapping occurrences of
`sep` left to right, performing at most `maxsplit` splits. -/
def pySplit (sep : List Char) : Nat → List Char → List (List Char)
  | 0, cs => [cs]
  | ms + 1, cs =>
    match splitOnceSub sep cs with
    | none => [cs]
    | some (pre, post) => pre :: pySplit sep ms post

/-- Python `s.split(sep)[0]`: the text before the first occurrence of `sep`
(the whole string when `sep` does not occur). -/
def beforeFirst (sep : List Char) (cs : List Char) : List Char :=
  match splitOnceSub sep cs with
  | some (pre, _) => pre
  | none => cs

/-- Numeric value of a decimal digit character. -/
def charVal (c : Char) : Nat := c.toNat - 48

/-- Digit-run scanner for Python `int`: after the first digit, digits may be
separated by single underscores; anything else is a failure. -/
def digitsValGo (acc : Nat) : List Char → Option Nat
  | [] => some acc
  | c :: cs =>
    if c.isDigit then digitsValGo (acc * 10 + charVal c) cs
    else if c = '_' then
      if cs.head?.elim false Char.isDigit then digitsValGo acc cs else none
    else none

/-- Value of a digit string for Python `int`: nonempty, starts with a digit. -/
def digitsVal : List Char → Option Nat
  | [] => none
  | c :: cs => if c.isDigit then digitsValGo (charVal c) cs else none

/-- Python `int(s)` for decimal strings: optional surrounding whitespace,
optional single sign, then digits (underscore separators allowed). -/
def pyInt (cs : List Char) : Option Int :=
  match pyStrip cs with
  | [] => none
  | c :: rest =>
    if c = '+' then Option.map (fun n => Int.ofNat n) (digitsVal rest)
    else if c = '-' then Option.map (fun n => -(Int.ofNat n)) (digitsVal rest)
    else Option.map (fun n => Int.ofNat n) (digitsVal (c :: rest))

/-- Python `line.startswith(s)`. -/
def startsWith (s : String) (l : Line) : Bool :=
  s.toList.isPrefixOf l

/-- Python `line.startswith(("---", "+++", "diff ", "index "))`: the diff-header
lines skipped by the scanning loop of `apply_patch`. -/
def isSkipHeader (l : Line) : Bool :=
  startsWith "---" l || startsWith "+++" l || startsWith "diff " l ||
    startsWith "index " l

/-- The failure modes of `apply_patch`.  The first five model the `die(...)`
calls (each carries the interpolated text of its message, i.e. the stripped
offending line where the message includes one); `indexError` models the
uncaught Python `IndexError` raised by `original_lines[orig_idx]` in the
copy-before-hunk loop when the index is out of range. -/
inductive PatchError where
  | malformedHeader (header : Line)
  | contextMismatch
  | removalMismatch
  | unexpectedLine (line : Line)
  | unexpectedContent (line : Line)
  | indexError
  deriving Repr, DecidableEq

/-- Hunk-header parsing of `apply_patch` (the `try` block):
`_, ranges, _ = header.split("@@", 2)` (exactly three pieces required),
`old_range, _ = ranges.strip().split(" ", 1)` (exactly two pieces required),
`old_start = int(old_range.split(",")[0].lstrip("-")) - 1`.
Any failure is `die("Malformed hunk header: " + line.strip())`. -/
def parseHunkHeader (line : Line) : Except PatchError Int :=
  match pySplit ('@' :: '@' :: []) 2 line with
  | [_, ranges, _] =>
    match pySplit (' ' :: []) 1 (pyStrip ranges) with
    | [old_range, _] =>
      match pyInt ((beforeFirst (',' :: []) old_range).dropWhile
          (fun c => c = '-')) with
      | some n => .ok (n - 1)
      | none => .error (.malformedHeader (pyStrip line))
    | _ => .error (.malformedHeader (pyStrip line))
  | _ => .error (.malformedHeader (pyStrip line))

/-- The copy-before-hunk loop
`while orig_idx < old_start: result.append(original_lines[orig_idx]);
orig_idx += 1`, run for its iteration count `n = (old_start - orig_idx).toNat`.
An out-of-range read raises `IndexError` (uncaught in the source). -/
def copyLoop (original : List Line) (orig_idx : Nat) (result : List Line) :
    Nat → Except PatchError (List Line × Nat)
  | 0 => .ok (result, orig_idx)
  | n + 1 =>
    match original.get? orig_idx with
    | some l => copyLoop original (orig_idx + 1) (result ++ [l]) n
    | none => .error .indexError

/-- The two nested `while` loops of `apply_patch` over the remaining patch
lines.  `inBody = false` is the outer scanning loop (skip diff headers, start
hunks, reject other content); `inBody = true` is the inner hunk-body loop
(context / deletion / insertion lines; a new `@@` header breaks back to the
outer loop, which immediately re-dispatches it as a hunk start).  Returns the
result sequence (tail of the original appended, as `result.extend(
original_lines[orig_idx:])` does) together with the final value of
`orig_idx` before that tail append. -/
def applyAux (original : List Line) :
    Bool → Nat → List Line → List Line → Except PatchError (List Line × Nat)
  | _, orig_idx, result, [] => .ok (result ++ original.drop orig_idx, orig_idx)
  | inBody, orig_idx, result, line :: rest =>
    if !inBody && isSkipHeader line then
      applyAux original false orig_idx result rest
    else if startsWith "@@" line then
      match parseHunkHeader line with
      | .error e => .error e
      | .ok old_start =>
        match copyLoop original orig_idx result
            (old_start - (orig_idx : Int)).toNat with
        | .error e => .error e
        | .ok (result', orig_idx') =>
          applyAux original true orig_idx' result' rest
    else if inBody then
      if startsWith " " line then
        match original.get? orig_idx with
        | some ol =>
          if ol = line.drop 1 then
            applyAux original true (orig_idx + 1) (result ++ [ol]) rest
          else .error .contextMismatch
        | none => .error .contextMismatch
      else if startsWith "-" line then
        match original.get? orig_idx with
        | some ol =>
          if ol = line.drop 1 then
            applyAux original true (orig_idx + 1) result rest
          else .error .removalMismatch
        | none => .error .removalMismatch
      else if startsWith "+" line then
        applyAux original true orig_idx (result ++ [line.drop 1]) rest
      else .error (.unexpectedLine (pyStrip line))
    else .error (.unexpectedContent (pyStrip line))

/-- Python `apply_patch(original_lines, patch_lines)`: the pure core of the script.
Returns the patched result sequence, or the failure. -/
def apply_patch (original patch : List Line) : Except PatchError (List Line) :=
  (applyAux original false 0 [] patch).map Prod.fst

/-- The character of a decimal digit value. -/
def digitChar (d : Nat) : Char := Char.ofNat (48 + d)

/-- Little-endian decimal digit characters of `n`, with enough fuel;
structural recursion so that concrete headers evaluate. -/
def natDigitsAux : Nat → Nat → List Char
  | _, 0 => []
  | 0, _ => []
  | fuel + 1, n => digitChar (n % 10) :: natDigitsAux fuel (n / 10)

/-- Decimal rendering of a natural number as characters (big-endian);
empty for `0`, which never arises in a generated header below. -/
def natDigits (n : Nat) : List Char :=
  (natDigitsAux n n).reverse

/-- Length of the longest common prefix of two line sequences. -/
def commonPrefixLen : List Line → List Line → Nat
  | a :: as, b :: bs => if a = b then commonPrefixLen as bs + 1 else 0
  | _, _ => 0

/-- The range descriptor `-a,b +c,d` of a generated hunk header. -/
def hunkRangeCore (a b c d : Nat) : Line :=
  ('-' :: natDigits a) ++ (',' :: natDigits b) ++
    (' ' :: '+' :: natDigits c) ++ (',' :: natDigits d)

/-- A generated hunk header `@@ -a,b +c,d @@\n`. -/
def mkHunkHeader (a b c d : Nat) : Line :=
  ('@' :: '@' :: ' ' :: hunkRangeCore a b c d) ++ (' ' :: '@' :: '@' :: ['\n'])

/-- Modelled from the spec: the unified-diff generator.  The repository
invokes Python's `difflib.unified_diff` (in `auto_patch.py`), whose code is
not under `src/`; this model follows the spec's input format (section 6):
two file-header lines (`---`, `+++`), then one hunk per changed region with
header `@@ -<old_start>,<old_count> +<new_start>,<new_count> @@` followed by
prefixed body lines.  It emits a single hunk covering everything after the
longest common prefix of the two sequences, as deletions of the remaining
original lines followed by insertions of the remaining target lines, and an
empty diff when the sequences are equal. -/
def unified_diff (O T : List Line) : List Line :=
  if O = T then []
  else
    let p := commonPrefixLen O T
    "--- original\n".toList :: "+++ target\n".toList ::
      mkHunkHeader (p + 1) (O.length - p) (p + 1) (T.length - p) ::
      ((O.drop p).map (fun l => '-' :: l) ++
        (T.drop p).map (fun l => '+' :: l))

instance {ε α : Type} [DecidableEq ε] [DecidableEq α] :
    DecidableEq (Except ε α) := fun a b =>
  match a, b with
  | .ok x, .ok y =>
    if h : x = y then .isTrue (by rw [h]) else .isFalse (by simp [h])
  | .error x, .error y =>
    if h : x = y then .isTrue (by rw [h]) else .isFalse (by simp [h])
  | .ok _, .error _ => .isFalse (by simp)
  | .error _, .ok _ => .isFalse (by simp)

/-! ### Digit characters -/

lemma natDigitsAux_mem {fuel n : Nat} {c : Char} (h : c ∈ natDigitsAux fuel n) :
    ∃ d, d < 10 ∧ c = digitChar d := by
  induction fuel generalizing n with
  | zero =>
    cases n with
    | zero => simp [natDigitsAux] at h
    | succ m => simp [natDigitsAux] at h
  | succ fuel ih =>
    cases n with
    | zero => simp [natDigitsAux] at h
    | succ m =>
      simp only [natDigitsAux, List.mem_cons] at h
      rcases h with h | h
      · exact ⟨(m + 1) % 10, Nat.mod_lt _ (by norm_num), h⟩
      · exact ih h

lemma digitChar_props {d : Nat} (hd : d < 10) :
    (digitChar d).isDigit = true ∧ isPyWS (digitChar d) = false ∧
      digitChar d ≠ '@' ∧ digitChar d ≠ ',' ∧ digitChar d ≠ ' ' ∧
      digitChar d ≠ '-' ∧ digitChar d ≠ '+' := by
  interval_cases d <;> exact ⟨rfl, rfl, by decide, by decide, by decide,
    by decide, by decide⟩

lemma natDigits_mem {n : Nat} {c : Char} (h : c ∈ natDigits n) :
    c.isDigit = true ∧ isPyWS c = false ∧ c ≠ '@' ∧ c ≠ ',' ∧ c ≠ ' ' ∧
      c ≠ '-' ∧ c ≠ '+' := by
  rw [natDigits, List.mem_reverse] at h
  obtain ⟨d, hd, rfl⟩ := natDigitsAux_mem h
  exact digitChar_props hd

lemma charVal_digitChar {d : Nat} (hd : d < 10) : charVal (digitChar d) = d := by
  interval_cases d <;> rfl

/-! ### `dropWhile` / `pyStrip` helpers -/

lemma dropWhile_eq_self {p : Char → Bool} {l : List Char}
    (h : ∀ c ∈ l, p c = false) : l.dropWhile p = l := by
  cases l with
  | nil => rfl
  | cons c t => simp [List.dropWhile, h c (List.mem_cons_self c t)]

lemma pyStrip_eq_self {l : List Char} (h : ∀ c ∈ l, isPyWS c = false) :
    pyStrip l = l := by
  rw [pyStrip, dropWhile_eq_self h, dropWhile_eq_self
    (fun c hc => h c (List.mem_reverse.mp hc)), List.reverse_reverse]

lemma pyStrip_wrap {c cl : Char} {t tl : List Char}
    (h1 : isPyWS c = false) (h2 : isPyWS cl = false)
    (heq : c :: t = tl ++ [cl]) :
    pyStrip (' ' :: ((c :: t) ++ [' '])) = c :: t := by
  rw [pyStrip]
  have hws : isPyWS ' ' = true := rfl
  rw [List.dropWhile_cons_of_pos hws, List.cons_append,
    List.dropWhile_cons_of_neg (by simp [h1]), ← List.cons_append,
    List.reverse_append, heq, List.reverse_append]
  simp only [List.reverse_cons, List.reverse_nil, List.nil_append,
    List.cons_append]
  rw [List.dropWhile_cons_of_pos hws, List.dropWhile_cons_of_neg (by simp [h2])]
  simp [← heq]

/-! ### Digit-string value round trip -/

lemma digitsValGo_all_digits {ds : List Char} :
    ∀ acc, (∀ c ∈ ds, c.isDigit = true) →
      digitsValGo acc ds = some (ds.foldl (fun a c => a * 10 + charVal c) acc) := by
  induction ds with
  | nil => intro acc _; rfl
  | cons c cs ih =>
    intro acc h
    have hc : c.isDigit = true := h c (List.mem_cons_self c cs)
    simp only [digitsValGo]
    rw [if_pos hc, List.foldl_cons]
    exact ih _ (fun x hx => h x (List.mem_cons_of_mem c hx))

lemma natDigitsAux_foldl {fuel : Nat} :
    ∀ n acc, n ≤ fuel →
      (natDigitsAux fuel n).reverse.foldl (fun a c => a * 10 + charVal c) acc =
        acc * 10 ^ (natDigitsAux fuel n).length + n := by
  induction fuel with
  | zero =>
    intro n acc hn
    interval_cases n
    simp [natDigitsAux]
  | succ fuel ih =>
    intro n acc hn
    cases n with
    | zero => simp [natDigitsAux]
    | succ m =>
      rw [show natDigitsAux (fuel + 1) (m + 1) =
          digitChar ((m + 1) % 10) :: natDigitsAux fuel ((m + 1) / 10) from rfl]
      have hdiv : (m + 1) / 10 ≤ fuel :=
        Nat.le_of_lt_succ (Nat.lt_of_lt_of_le
          (Nat.div_lt_self (Nat.succ_pos m) (by norm_num)) hn)
      rw [List.reverse_cons, List.foldl_append, ih _ acc hdiv]
      simp only [List.foldl_cons, List.foldl_nil, List.length_cons]
      rw [charVal_digitChar (Nat.mod_lt _ (by norm_num))]
      rw [pow_succ]
      have := Nat.div_add_mod (m + 1) 10
      ring_nf
      omega

lemma digitsVal_natDigits {n : Nat} (hn : n ≠ 0) :
    digitsVal (natDigits n) = some n := by
  obtain ⟨m, rfl⟩ := Nat.exists_eq_succ_of_ne_zero hn
  have hrw : natDigits (m + 1) =
      (natDigitsAux m ((m + 1) / 10)).reverse ++ [digitChar ((m + 1) % 10)] := by
    rw [natDigits, show natDigitsAux (m + 1) (m + 1) =
      digitChar ((m + 1) % 10) :: natDigitsAux m ((m + 1) / 10) from rfl,
      List.reverse_cons]
  have hall : ∀ c ∈ natDigits (m + 1), c.isDigit = true :=
    fun c hc => (natDigits_mem hc).1
  have hfold := @natDigitsAux_foldl (m + 1) (m + 1) 0 (le_refl _)
  cases hh : natDigits (m + 1) with
  | nil =>
    rw [hrw] at hh
    exact absurd hh (by simp)
  | cons c cs =>
    have hcd : c.isDigit = true := hall c (hh ▸ List.mem_cons_self c cs)
    rw [digitsVal, if_pos hcd, digitsValGo_all_digits _
      (fun x hx => hall x (hh ▸ List.mem_cons_of_mem c hx))]
    have hv : (c :: cs).foldl (fun a c => a * 10 + charVal c) 0 = m + 1 := by
      have h0 : natDigits (m + 1) = (natDigitsAux (m + 1) (m + 1)).reverse := rfl
      rw [← hh, h0, hfold]; simp
    rw [List.foldl_cons] at hv
    simp only [Nat.zero_mul, Nat.zero_add] at hv
    rw [hv]

/-! ### Locating separators in generated text -/

lemma isPrefixOf_append_self (l t : List Char) :
    l.isPrefixOf (l ++ t) = true := by
  induction l with
  | nil => simp [List.isPrefixOf]
  | cons a as ih => simp [List.isPrefixOf, ih]

lemma splitOnceSub_at {s0 : Char} {s' : List Char} (sep : List Char)
    (hsep : sep = s0 :: s') :
    ∀ (xs ys : List Char), s0 ∉ xs →
      splitOnceSub sep (xs ++ sep ++ ys) = some (xs, ys) := by
  intro xs
  induction xs with
  | nil =>
    intro ys _
    rw [List.nil_append, hsep]
    rw [show splitOnceSub (s0 :: s') ((s0 :: s') ++ ys) =
        (if (s0 :: s').isPrefixOf ((s0 :: s') ++ ys) then
          some ([], ((s0 :: s') ++ ys).drop (s0 :: s').length)
        else
          match splitOnceSub (s0 :: s') (s' ++ ys) with
          | some (pre, post) => some (s0 :: pre, post)
          | none => none) from rfl]
    rw [if_pos (isPrefixOf_append_self _ _), List.drop_left]
  | cons x xs ih =>
    intro ys hmem
    have hx : s0 ≠ x := fun h => hmem (h ▸ List.mem_cons_self x xs)
    have hxs : s0 ∉ xs := fun h => hmem (List.mem_cons_of_mem x h)
    rw [List.cons_append, List.cons_append]
    rw [show splitOnceSub sep (x :: (xs ++ sep ++ ys)) =
        (if sep.isPrefixOf (x :: (xs ++ sep ++ ys)) then
          some ([], (x :: (xs ++ sep ++ ys)).drop sep.length)
        else
          match splitOnceSub sep (xs ++ sep ++ ys) with
          | some (pre, post) => some (x :: pre, post)
          | none => none) from by rw [splitOnceSub]]
    rw [if_neg (by
      rw [hsep]
      simp only [List.isPrefixOf, Bool.and_eq_true, beq_iff_eq]
      intro hcontra
      exact hx hcontra.1)]
    rw [ih ys hxs]

lemma splitOnceSub_none {s0 : Char} {s' : List Char} (sep : List Char)
    (hsep : sep = s0 :: s') :
    ∀ (xs : List Char), s0 ∉ xs → splitOnceSub sep xs = none := by
  intro xs
  induction xs with
  | nil => intro _; rw [hsep]; rfl
  | cons x xs ih =>
    intro hmem
    have hx : s0 ≠ x := fun h => hmem (h ▸ List.mem_cons_self x xs)
    have hxs : s0 ∉ xs := fun h => hmem (List.mem_cons_of_mem x h)
    rw [show splitOnceSub sep (x :: xs) =
        (if sep.isPrefixOf (x :: xs) then
          some ([], (x :: xs).drop sep.length)
        else
          match splitOnceSub sep xs with
          | some (pre, post) => some (x :: pre, post)
          | none => none) from by rw [splitOnceSub]]
    rw [if_neg (by
      rw [hsep]
      simp only [List.isPrefixOf, Bool.and_eq_true, beq_iff_eq]
      intro hcontra
      exact hx hcontra.1)]
    rw [ih hxs]

/-! ### Parsing a generated hunk header -/

lemma mem_hunkRangeCore {x : Char} {a b c d : Nat}
    (h : x ∈ hunkRangeCore a b c d) :
    x = '-' ∨ x = ',' ∨ x = ' ' ∨ x = '+' ∨ x ∈ natDigits a ∨
      x ∈ natDigits b ∨ x ∈ natDigits c ∨ x ∈ natDigits d := by
  simp only [hunkRangeCore, List.mem_append, List.mem_cons] at h
  tauto

lemma at_not_mem_hunkRangeCore {a b c d : Nat} : '@' ∉ hunkRangeCore a b c d := by
  intro h
  rcases mem_hunkRangeCore h with h | h | h | h | h | h | h | h
  · exact absurd h (by decide)
  · exact absurd h (by decide)
  · exact absurd h (by decide)
  · exact absurd h (by decide)
  all_goals exact (natDigits_mem h).2.2.1 rfl

lemma natDigits_ne_nil {a : Nat} (ha : a ≠ 0) : natDigits a ≠ [] := by
  obtain ⟨m, rfl⟩ := Nat.exists_eq_succ_of_ne_zero ha
  rw [natDigits, show natDigitsAux (m + 1) (m + 1) =
    digitChar ((m + 1) % 10) :: natDigitsAux m ((m + 1) / 10) from rfl]
  simp

lemma pyInt_natDigits {a : Nat} (ha : a ≠ 0) :
    pyInt (natDigits a) = some (a : Int) := by
  obtain ⟨c, cs, hh⟩ : ∃ c cs, natDigits a = c :: cs := by
    cases hnd : natDigits a with
    | nil => exact absurd hnd (natDigits_ne_nil ha)
    | cons c cs => exact ⟨c, cs, rfl⟩
  have hm : c ∈ natDigits a := hh ▸ List.mem_cons_self c cs
  have h1 : ¬(c = '+') := (natDigits_mem hm).2.2.2.2.2.2
  have h2 : ¬(c = '-') := (natDigits_mem hm).2.2.2.2.2.1
  rw [pyInt, pyStrip_eq_self (fun x hx => (natDigits_mem hx).2.1), hh]
  simp only [h1, h2, if_false, ite_false]
  rw [← hh, digitsVal_natDigits ha]
  rfl

lemma pySplit_mkHunkHeader (a b c d : Nat) :
    pySplit ('@' :: '@' :: []) 2 (mkHunkHeader a b c d) =
      [[], (' ' :: hunkRangeCore a b c d) ++ [' '], ['\n']] := by
  have hform : mkHunkHeader a b c d =
      [] ++ ('@' :: '@' :: []) ++
        (((' ' :: hunkRangeCore a b c d) ++ [' ']) ++ ('@' :: '@' :: []) ++
          ['\n']) := by
    simp [mkHunkHeader]
  rw [hform]
  simp only [pySplit]
  rw [splitOnceSub_at ('@' :: '@' :: []) rfl [] _ (by simp)]
  simp only [pySplit]
  rw [splitOnceSub_at ('@' :: '@' :: []) rfl
    ((' ' :: hunkRangeCore a b c d) ++ [' ']) ['\n'] (by
      intro hmem
      simp only [List.cons_append, List.mem_cons, List.mem_append,
        List.mem_singleton] at hmem
      rcases hmem with h | h | h
      · exact absurd h (by decide)
      · exact at_not_mem_hunkRangeCore h
      · exact absurd h (by decide))]

lemma pyStrip_inner (a b c d : Nat) :
    pyStrip (' ' :: ((hunkRangeCore a b c d) ++ [' '])) =
      hunkRangeCore a b c d := by
  obtain ⟨tl, cl, hconc, hcl⟩ :
      ∃ tl cl, hunkRangeCore a b c d = tl ++ [cl] ∧ isPyWS cl = false := by
    rcases List.eq_nil_or_concat (natDigits d) with hd | ⟨L, bb, hD⟩
    · exact ⟨('-' :: natDigits a) ++ ((',' :: natDigits b) ++
        (' ' :: '+' :: natDigits c)), ',',
        by simp [hunkRangeCore, hd], by decide⟩
    · refine ⟨('-' :: natDigits a) ++ ((',' :: natDigits b) ++
        ((' ' :: '+' :: natDigits c) ++ (',' :: L))), bb,
        by simp [hunkRangeCore, hD], ?_⟩
      have hmem : bb ∈ natDigits d := by rw [hD]; simp
      exact (natDigits_mem hmem).2.1
  have hhead : hunkRangeCore a b c d =
      '-' :: (natDigits a ++ ((',' :: natDigits b) ++
        ((' ' :: '+' :: natDigits c) ++ (',' :: natDigits d)))) := by
    simp [hunkRangeCore]
  rw [hhead]
  exact pyStrip_wrap (by decide) hcl (hhead.symm.trans hconc)

lemma pySplit_space_core (a b c d : Nat) :
    pySplit (' ' :: []) 1 (hunkRangeCore a b c d) =
      [('-' :: natDigits a) ++ (',' :: natDigits b),
        ('+' :: natDigits c) ++ (',' :: natDigits d)] := by
  have hform : hunkRangeCore a b c d =
      (('-' :: natDigits a) ++ (',' :: natDigits b)) ++ (' ' :: []) ++
        (('+' :: natDigits c) ++ (',' :: natDigits d)) := by
    simp [hunkRangeCore]
  rw [hform]
  simp only [pySplit]
  rw [splitOnceSub_at (' ' :: []) rfl _ _ (by
    intro hmem
    simp only [List.cons_append, List.mem_cons, List.mem_append] at hmem
    rcases hmem with h | h | h | h
    · exact absurd h (by decide)
    · exact absurd ((natDigits_mem h).2.2.2.2.1) (by simp [h])
    · exact absurd h (by decide)
    · exact absurd ((natDigits_mem h).2.2.2.2.1) (by simp [h]))]

lemma beforeFirst_comma (a b : Nat) :
    beforeFirst (',' :: []) ('-' :: (natDigits a ++ (',' :: natDigits b))) =
      '-' :: natDigits a := by
  have hform : '-' :: (natDigits a ++ (',' :: natDigits b)) =
      ('-' :: natDigits a) ++ (',' :: []) ++ natDigits b := by simp
  rw [beforeFirst, hform]
  rw [splitOnceSub_at (',' :: []) rfl _ _ (by
    intro hmem
    simp only [List.mem_cons] at hmem
    rcases hmem with h | h
    · exact absurd h (by decide)
    · exact absurd ((natDigits_mem h).2.2.2.1) (by simp [h]))]

lemma parseHunkHeader_mk (a b c d : Nat) (ha : a ≠ 0) :
    parseHunkHeader (mkHunkHeader a b c d) = .ok ((a : Int) - 1) := by
  have hs : pyStrip (' ' :: (hunkRangeCore a b c d ++ [' '])) =
      hunkRangeCore a b c d := pyStrip_inner a b c d
  have hdw : ('-' :: natDigits a).dropWhile (fun c => c = '-') = natDigits a := by
    rw [List.dropWhile_cons_of_pos (by simp)]
    exact dropWhile_eq_self (fun c hc =>
      decide_eq_false (fun h => (natDigits_mem hc).2.2.2.2.2.1 h))
  simp only [parseHunkHeader, pySplit_mkHunkHeader, List.cons_append, hs,
    pySplit_space_core, beforeFirst_comma, hdw, pyInt_natDigits ha]

/-! ### Line-shape facts -/

lemma toList_atat : "@@".toList = '@' :: '@' :: [] := rfl

lemma startsWith_atat_iff {line : Line} :
    startsWith "@@" line = true ↔ ∃ t, line = '@' :: '@' :: t := by
  constructor
  · intro h
    rw [startsWith, toList_atat] at h
    match line with
    | [] => simp [List.isPrefixOf] at h
    | [c] => simp [List.isPrefixOf] at h
    | c1 :: c2 :: t =>
      simp only [List.isPrefixOf, Bool.and_eq_true, beq_iff_eq] at h
      exact ⟨t, by rw [← h.1, ← h.2.1]⟩
  · rintro ⟨t, rfl⟩
    rw [startsWith, toList_atat]
    simp [List.isPrefixOf]

lemma startsWith_cons_false {s : String} {s0 : Char} {st : List Char}
    (hs : s.toList = s0 :: st) {c : Char} (hne : ¬(s0 = c)) (l : List Char) :
    startsWith s (c :: l) = false := by
  rw [startsWith, hs]
  simp [List.isPrefixOf, hne]

lemma startsWith_cons_same {s : String} {s0 : Char}
    (hs : s.toList = [s0]) (l : List Char) :
    startsWith s (s0 :: l) = true := by
  rw [startsWith, hs]
  simp [List.isPrefixOf]

lemma isSkipHeader_atat (t : List Char) :
    isSkipHeader ('@' :: '@' :: t) = false := by
  rw [isSkipHeader]
  rw [startsWith_cons_false (s := "---") rfl (by decide),
    startsWith_cons_false (s := "+++") rfl (by decide),
    startsWith_cons_false (s := "diff ") rfl (by decide),
    startsWith_cons_false (s := "index ") rfl (by decide)]
  rfl

/-! ### Step lemmas for `applyAux` -/

lemma applyAux_nil (O : List Line) (b : Bool) (idx : Nat) (res : List Line) :
    applyAux O b idx res [] = .ok (res ++ O.drop idx, idx) := rfl

lemma applyAux_skip {O : List Line} {idx : Nat} {res rest : List Line}
    {line : Line} (h : isSkipHeader line = true) :
    applyAux O false idx res (line :: rest) = applyAux O false idx res rest := by
  simp only [applyAux]
  rw [if_pos (by simp [h])]

lemma applyAux_hunk {O : List Line} {b : Bool} {idx : Nat} {res rest : List Line}
    {line : Line} {s : Int}
    (hsw : startsWith "@@" line = true)
    (hp : parseHunkHeader line = .ok s) :
    applyAux O b idx res (line :: rest) =
      match copyLoop O idx res (s - (idx : Int)).toNat with
      | .error e => .error e
      | .ok (res', idx') => applyAux O true idx' res' rest := by
  obtain ⟨t, rfl⟩ := startsWith_atat_iff.mp hsw
  simp only [applyAux]
  rw [if_neg (by simp [isSkipHeader_atat]), if_pos hsw, hp]

lemma applyAux_hunk_err {O : List Line} {b : Bool} {idx : Nat}
    {res rest : List Line} {line : Line} {e : PatchError}
    (hsw : startsWith "@@" line = true)
    (hp : parseHunkHeader line = .error e) :
    applyAux O b idx res (line :: rest) = .error e := by
  obtain ⟨t, rfl⟩ := startsWith_atat_iff.mp hsw
  simp only [applyAux]
  rw [if_neg (by simp [isSkipHeader_atat]), if_pos hsw, hp]

lemma applyAux_del {O : List Line} {idx : Nat} {res rest : List Line}
    {payl ol : Line} (hget : O.get? idx = some ol) :
    applyAux O true idx res (('-' :: payl) :: rest) =
      (if ol = payl then applyAux O true (idx + 1) res rest
       else .error .removalMismatch) := by
  simp only [applyAux]
  rw [if_neg (by simp), if_neg (by
      rw [startsWith_cons_false (s := "@@") rfl (by decide)]; simp),
    if_pos trivial,
    if_neg (by rw [startsWith_cons_false (s := " ") rfl (by decide)]; simp),
    if_pos (startsWith_cons_same (s := "-") rfl payl), hget]
  simp only [List.drop_succ_cons, List.drop_zero]

lemma applyAux_ins {O : List Line} {idx : Nat} {res rest : List Line}
    {payl : Line} :
    applyAux O true idx res (('+' :: payl) :: rest) =
      applyAux O true idx (res ++ [payl]) rest := by
  simp only [applyAux]
  rw [if_neg (by simp), if_neg (by
      rw [startsWith_cons_false (s := "@@") rfl (by decide)]; simp),
    if_pos trivial,
    if_neg (by rw [startsWith_cons_false (s := " ") rfl (by decide)]; simp),
    if_neg (by rw [startsWith_cons_false (s := "-") rfl (by decide)]; simp),
    if_pos (startsWith_cons_same (s := "+") rfl payl)]
  simp only [List.drop_succ_cons, List.drop_zero]

lemma applyAux_ctx {O : List Line} {idx : Nat} {res rest : List Line}
    {payl ol : Line} (hget : O.get? idx = some ol) :
    applyAux O true idx res ((' ' :: payl) :: rest) =
      (if ol = payl then applyAux O true (idx + 1) (res ++ [ol]) rest
       else .error .contextMismatch) := by
  simp only [applyAux]
  rw [if_neg (by simp), if_neg (by
      rw [startsWith_cons_false (s := "@@") rfl (by decide)]; simp),
    if_pos trivial,
    if_pos (startsWith_cons_same (s := " ") rfl payl), hget]
  simp only [List.drop_succ_cons, List.drop_zero]

/-! ### Run lemmas -/

lemma copyLoop_ok (O : List Line) :
    ∀ (n idx : Nat) (res : List Line), idx + n ≤ O.length →
      copyLoop O idx res n = .ok (res ++ (O.drop idx).take n, idx + n) := by
  intro n
  induction n with
  | zero => intro idx res _; simp [copyLoop]
  | succ n ih =>
    intro idx res hle
    have hidx : idx < O.length := by omega
    have hget : O.get? idx = some O[idx] := by
      simp [List.get?_eq_getElem?, List.getElem?_eq_getElem, hidx]
    rw [copyLoop, hget]
    show copyLoop O (idx + 1) (res ++ [O[idx]]) n = _
    rw [ih (idx + 1) (res ++ [O[idx]]) (by omega)]
    have hdrop : (O.drop idx).take (n + 1) =
        O[idx] :: (O.drop (idx + 1)).take n := by
      rw [← List.getElem_cons_drop O idx hidx, List.take_cons (by omega)]
      norm_num
    rw [hdrop]
    simp only [List.append_assoc, List.singleton_append]
    congr 2
    omega

lemma applyAux_dels (O : List Line) :
    ∀ (ds : List Line) (idx : Nat) (res rest tail : List Line),
      O.drop idx = ds ++ tail →
      applyAux O true idx res (ds.map (fun l => '-' :: l) ++ rest) =
        applyAux O true (idx + ds.length) res rest := by
  intro ds
  induction ds with
  | nil => intro idx res rest tail _; simp
  | cons d ds ih =>
    intro idx res rest tail hdrop
    have hget : O.get? idx = some d := by
      have h0 : (O.drop idx).get? 0 = some d := by rw [hdrop]; rfl
      rw [List.get?_eq_getElem?] at h0 ⊢
      rw [List.getElem?_drop] at h0
      simpa using h0
    have hdrop' : O.drop (idx + 1) = ds ++ tail := by
      have hdd : O.drop (idx + 1) = List.drop 1 (O.drop idx) :=
        (List.drop_drop 1 idx O).symm
      rw [hdd, hdrop]
      simp
    rw [List.map_cons, List.cons_append, applyAux_del hget, if_pos rfl,
      ih (idx + 1) res rest tail hdrop']
    congr 1
    simp
    omega

lemma applyAux_inss (O : List Line) :
    ∀ (ts : List Line) (idx : Nat) (res rest : List Line),
      applyAux O true idx res (ts.map (fun l => '+' :: l) ++ rest) =
        applyAux O true idx (res ++ ts) rest := by
  intro ts
  induction ts with
  | nil => intro idx res rest; simp
  | cons t ts ih =>
    intro idx res rest
    rw [List.map_cons, List.cons_append, applyAux_ins, ih idx (res ++ [t]) rest]
    simp

lemma applyAux_skips (O : List Line) :
    ∀ (pre : List Line) (idx : Nat) (res rest : List Line),
      (∀ l ∈ pre, isSkipHeader l = true) →
      applyAux O false idx res (pre ++ rest) =
        applyAux O false idx res rest := by
  intro pre
  induction pre with
  | nil => intro idx res rest _; simp
  | cons x pre ih =>
    intro idx res rest h
    rw [List.cons_append, applyAux_skip (h x (List.mem_cons_self x pre)),
      ih idx res rest (fun l hl => h l (List.mem_cons_of_mem x hl))]

/-! ### Common prefixes -/

lemma commonPrefixLen_le_left :
    ∀ (O T : List Line), commonPrefixLen O T ≤ O.length := by
  intro O
  induction O with
  | nil => intro T; cases T <;> simp [commonPrefixLen]
  | cons a as ih =>
    intro T
    cases T with
    | nil => simp [commonPrefixLen]
    | cons b bs =>
      rw [commonPrefixLen]
      by_cases hab : a = b
      · rw [if_pos hab]; simpa using ih bs
      · rw [if_neg hab]; simp

lemma commonPrefixLen_le_right :
    ∀ (O T : List Line), commonPrefixLen O T ≤ T.length := by
  intro O
  induction O with
  | nil => intro T; cases T <;> simp [commonPrefixLen]
  | cons a as ih =>
    intro T
    cases T with
    | nil => simp [commonPrefixLen]
    | cons b bs =>
      rw [commonPrefixLen]
      by_cases hab : a = b
      · rw [if_pos hab]; simpa using ih bs
      · rw [if_neg hab]; simp

lemma commonPrefixLen_take :
    ∀ (O T : List Line),
      O.take (commonPrefixLen O T) = T.take (commonPrefixLen O T) := by
  intro O
  induction O with
  | nil => intro T; cases T <;> simp [commonPrefixLen]
  | cons a as ih =>
    intro T
    cases T with
    | nil => simp [commonPrefixLen]
    | cons b bs =>
      rw [commonPrefixLen]
      by_cases hab : a = b
      · rw [if_pos hab]
        simp only [List.take_succ_cons, hab]
        rw [ih bs]
      · rw [if_neg hab]; simp

/-- C1: for every original line sequence `O` and every target line sequence
`T`, applying the patch computed as the unified diff between `O` and `T`
(here the spec-modelled generator `unified_diff`, since the repository's
diff generator is Python's `difflib`, outside `src/`) to `O` succeeds and
returns exactly `T`. -/
theorem apply_patch_unified_diff_roundtrip (O T : List Line) :
    apply_patch O (unified_diff O T) = .ok T := by
  by_cases hOT : O = T
  · subst hOT
    rw [unified_diff, if_pos rfl]
    simp [apply_patch, applyAux_nil, Except.map]
  · rw [apply_patch]
    simp only [unified_diff, if_neg hOT]
    set p := commonPrefixLen O T with hp
    have hpO : p ≤ O.length := commonPrefixLen_le_left O T
    have hpT : p ≤ T.length := commonPrefixLen_le_right O T
    rw [applyAux_skip (by decide), applyAux_skip (by decide)]
    have hsw : startsWith "@@"
        (mkHunkHeader (p + 1) (O.length - p) (p + 1) (T.length - p)) = true := by
      apply startsWith_atat_iff.mpr
      exact ⟨' ' :: (hunkRangeCore (p + 1) (O.length - p) (p + 1)
        (T.length - p) ++ [' ', '@', '@', '\n']), by simp [mkHunkHeader]⟩
    have hparse := parseHunkHeader_mk (p + 1) (O.length - p) (p + 1)
      (T.length - p) (by omega)
    have hcast : ((p + 1 : Nat) : Int) - 1 = (p : Int) := by push_cast; ring
    rw [hcast] at hparse
    rw [applyAux_hunk hsw hparse]
    have hcopy : copyLoop O 0 [] ((p : Int) - ((0 : Nat) : Int)).toNat =
        .ok (O.take p, p) := by
      have h0 : ((p : Int) - ((0 : Nat) : Int)).toNat = p := by simp
      rw [h0, copyLoop_ok O p 0 [] (by omega)]
      simp
    rw [hcopy]
    have hrun : applyAux O true p (O.take p)
        ((O.drop p).map (fun l => '-' :: l) ++
          (T.drop p).map (fun l => '+' :: l)) =
        .ok (O.take p ++ T.drop p, O.length) := by
      rw [applyAux_dels O (O.drop p) p (O.take p)
        ((T.drop p).map (fun l => '+' :: l)) [] (by simp)]
      have hlen : p + (O.drop p).length = O.length := by
        rw [List.length_drop]; omega
      rw [hlen]
      rw [show (T.drop p).map (fun l => '+' :: l) =
        (T.drop p).map (fun l => '+' :: l) ++ [] from (List.append_nil _).symm]
      rw [applyAux_inss O (T.drop p) O.length (O.take p) [], applyAux_nil]
      simp [List.drop_length]
    show Except.map Prod.fst (applyAux O true p (O.take p)
      ((O.drop p).map (fun l => '-' :: l) ++
        (T.drop p).map (fun l => '+' :: l))) = .ok T
    rw [hrun]
    have htake : O.take p = T.take p := hp ▸ commonPrefixLen_take O T
    rw [show Except.map Prod.fst
        (Except.ok (ε := PatchError) (O.take p ++ T.drop p, O.length)) =
        Except.ok (O.take p ++ T.drop p) from rfl]
    rw [htake, List.take_append_drop]

/-- C8: the spec's scenario: applying the hunk `@@ -1,3 +1,3 @@` with body
`[" a\n", "-b\n", "+B\n", " c\n"]` to `["a\n", "b\n", "c\n"]` succeeds and
returns `["a\n", "B\n", "c\n"]`. -/
theorem scenario_replace_middle_line :
    apply_patch ["a\n".toList, "b\n".toList, "c\n".toList]
      ["@@ -1,3 +1,3 @@\n".toList, " a\n".toList, "-b\n".toList,
        "+B\n".toList, " c\n".toList] =
      .ok ["a\n".toList, "B\n".toList, "c\n".toList] := by
  decide

/-- C5: applying a patch whose lines are all recognised preamble lines (in
particular the empty patch, which has zero hunk headers) returns the
original unchanged. -/
theorem zero_hunk_patch_identity (O patch : List Line)
    (h : ∀ l ∈ patch, isSkipHeader l = true) :
    apply_patch O patch = .ok O := by
  rw [apply_patch]
  have hskips := applyAux_skips O patch 0 [] [] h
  rw [List.append_nil] at hskips
  rw [hskips, applyAux_nil]
  simp [Except.map]

/-- Witness for C5 at a concrete input. -/
theorem zero_hunk_patch_identity_witness :
    apply_patch ["a\n".toList, "b\n".toList]
      ["--- a/f\n".toList, "+++ b/f\n".toList, "index 12..34\n".toList,
        "diff --git a b\n".toList] =
      .ok ["a\n".toList, "b\n".toList] :=
  zero_hunk_patch_identity _ _ (by decide)

/-- C2: during hunk-body application, a context line whose payload (text
after the leading space) differs from the original line at the cursor fails
with the context-mismatch error, and a deletion line whose payload (text
after the leading `-`) differs fails with the removal-mismatch error; the
comparison is full-line (terminator included) and no result is produced. -/
theorem mismatch_detection (O : List Line) (idx : Nat) (res rest : List Line)
    (payl ol : Line) (hget : O.get? idx = some ol) (hne : ol ≠ payl) :
    applyAux O true idx res ((' ' :: payl) :: rest) =
        .error .contextMismatch ∧
      applyAux O true idx res (('-' :: payl) :: rest) =
        .error .removalMismatch := by
  refine ⟨?_, ?_⟩
  · rw [applyAux_ctx hget, if_neg hne]
  · rw [applyAux_del hget, if_neg hne]

/-- Witness for C2 at a concrete input (the spec's second scenario). -/
theorem mismatch_detection_witness :
    applyAux ["x\n".toList] true 0 [] [' ' :: "y\n".toList] =
        .error .contextMismatch ∧
      applyAux ["x\n".toList] true 0 [] ['-' :: "y\n".toList] =
        .error .removalMismatch :=
  mismatch_detection ["x\n".toList] 0 [] [] "y\n".toList "x\n".toList rfl
    (by decide)

/-- Any failure of the hunk-header parse carries the stripped header text. -/
lemma parseHunkHeader_error_shape {line : Line} {e : PatchError}
    (h : parseHunkHeader line = .error e) :
    e = .malformedHeader (pyStrip line) := by
  unfold parseHunkHeader at h
  split at h
  · split at h
    · split at h
      · exact Except.noConfusion h
      · injection h with h'; exact h'.symm
    · injection h with h'; exact h'.symm
  · injection h with h'; exact h'.symm

/-- C7: when the applier reaches a hunk-header line (a line beginning with
`@@`) whose range cannot be parsed (non-numeric old-start token, missing
delimiter, ...), it fails immediately with a parse error naming the
stripped text of the offending header, and no result is produced. -/
theorem malformed_header_parse_error (O : List Line) (b : Bool) (idx : Nat)
    (res rest : List Line) (line : Line) (e : PatchError)
    (hsw : startsWith "@@" line = true)
    (hp : parseHunkHeader line = .error e) :
    applyAux O b idx res (line :: rest) =
      .error (.malformedHeader (pyStrip line)) := by
  rw [applyAux_hunk_err hsw hp, parseHunkHeader_error_shape hp]

/-- Witness for C7: a header with a non-numeric old-start token. -/
theorem malformed_header_parse_error_witness :
    applyAux [] false 0 [] ["@@ -x,3 +1,3 @@\n".toList] =
      .error (.malformedHeader (pyStrip "@@ -x,3 +1,3 @@\n".toList)) :=
  malformed_header_parse_error [] false 0 [] [] "@@ -x,3 +1,3 @@\n".toList
    (.malformedHeader (pyStrip "@@ -x,3 +1,3 @@\n".toList)) (by decide)
    (by decide)

/-- C10: a hunk header parsing to `old_start ≤ orig_idx` (overlapping or
out-of-order hunks, and the `old_start = -1` produced by a `-0,0` range)
raises no error at that step: the copy-before-hunk loop is a no-op, the
cursor is unchanged, and hunk-body processing continues from it. -/
theorem nonpositive_hunk_start_no_error (O : List Line) (b : Bool) (idx : Nat)
    (res rest : List Line) (line : Line) (s : Int)
    (hsw : startsWith "@@" line = true)
    (hp : parseHunkHeader line = .ok s)
    (hle : s ≤ (idx : Int)) :
    applyAux O b idx res (line :: rest) = applyAux O true idx res rest := by
  rw [applyAux_hunk hsw hp]
  have h0 : (s - (idx : Int)).toNat = 0 := by omega
  rw [h0]
  rfl

/-- Witness for C10: the `-0,0` old range parses to `old_start = -1` and is
accepted with an unchanged cursor. -/
theorem nonpositive_hunk_start_no_error_witness :
    applyAux [] false 0 [] ["@@ -0,0 +0,0 @@\n".toList] =
      applyAux ([] : List Line) true 0 [] [] :=
  nonpositive_hunk_start_no_error [] false 0 [] []
    "@@ -0,0 +0,0 @@\n".toList (-1) (by decide) (by decide) (by decide)

/-- C3 (code bug): the copy-before-hunk loop has no bounds check, so a hunk
header whose `old_start` exceeds the length of the original makes
`original_lines[orig_idx]` read out of range, raising an uncaught Python
`IndexError` instead of the in-bounds behaviour the spec's invariant
states. -/
theorem copy_loop_reads_out_of_bounds :
    apply_patch ["a\n".toList] ["@@ -5,0 +5,0 @@\n".toList] =
      .error .indexError := by
  decide

/-- C4 counterexample: a `+++` line occurring inside a hunk body is not
skipped: it is treated as an insertion line whose payload (the text after
the first `+`) is emitted into the result, so removing it changes the
output.  (A `diff ` line in the same position is an unexpected-line error.) -/
theorem preamble_line_in_body_not_ignored :
    apply_patch [] ["@@ -0,0 +0,0 @@\n".toList, "+++ y\n".toList] =
        .ok ["++ y\n".toList] ∧
      apply_patch [] ["@@ -0,0 +0,0 @@\n".toList] = .ok ([] : List Line) ∧
      apply_patch [] ["@@ -0,0 +0,0 @@\n".toList, "diff x\n".toList] =
        .error (.unexpectedLine "diff x".toList) := by
  exact ⟨by decide, by decide, by decide⟩

/-- C4 amended: every line beginning with `---`, `+++`, `diff ` or `index `
that the scanning loop reaches outside a hunk body — in particular any run
of such lines before the first hunk header — is skipped and otherwise
ignored. -/
theorem preamble_before_first_hunk_ignored (O pre rest : List Line)
    (h : ∀ l ∈ pre, isSkipHeader l = true) :
    apply_patch O (pre ++ rest) = apply_patch O rest := by
  rw [apply_patch, apply_patch, applyAux_skips O pre 0 [] rest h]

/-- Witness for the amended C4 at a concrete input. -/
theorem preamble_before_first_hunk_ignored_witness :
    apply_patch ["a\n".toList]
        (["--- a\n".toList, "+++ b\n".toList, "diff x\n".toList,
          "index 1\n".toList] ++ ["@@ -1,1 +1,1 @@\n".toList, " a\n".toList]) =
      apply_patch ["a\n".toList] ["@@ -1,1 +1,1 @@\n".toList, " a\n".toList] :=
  preamble_before_first_hunk_ignored _ _ _ (by decide)

/-- On success, the result of `applyAux` ends with the original's suffix
from the final cursor. -/
lemma applyAux_ok_tail (O : List Line) :
    ∀ (p : List Line) (b : Bool) (idx : Nat) (res out : List Line) (k : Nat),
      applyAux O b idx res p = .ok (out, k) →
      ∃ pre, out = pre ++ O.drop k := by
  intro p
  induction p with
  | nil =>
    intro b idx res out k h
    rw [applyAux_nil] at h
    simp only [Except.ok.injEq, Prod.mk.injEq] at h
    exact ⟨res, by rw [← h.1, h.2]⟩
  | cons line rest ih =>
    intro b idx res out k h
    simp only [applyAux] at h
    repeat' split at h
    all_goals
      first
        | exact ih _ _ _ _ _ h
        | exact Except.noConfusion h

/-- C6: whenever `apply_patch` succeeds, the output consists of some prefix
followed by all the original lines from the final cursor (the value of
`orig_idx` after the last hunk) to the end of the original, unchanged and
in order. -/
theorem tail_preservation (O patch out : List Line)
    (h : apply_patch O patch = .ok out) :
    ∃ k pre, applyAux O false 0 [] patch = .ok (out, k) ∧
      out = pre ++ O.drop k := by
  rw [apply_patch] at h
  obtain ⟨⟨out', k⟩, happ, hfst⟩ :
      ∃ pr, applyAux O false 0 [] patch = .ok pr ∧ pr.1 = out := by
    cases ha : applyAux O false 0 [] patch with
    | error e => rw [ha] at h; exact Except.noConfusion h
    | ok pr => rw [ha] at h; exact ⟨pr, rfl, by simpa [Except.map] using h⟩
  have hfst' : out' = out := hfst
  obtain ⟨pre, hpre⟩ := applyAux_ok_tail O patch false 0 [] out' k happ
  exact ⟨k, pre, by rw [happ, hfst'], hfst' ▸ hpre⟩

lemma startsWith_plus_shape {line : Line} (h : startsWith "+" line = true) :
    line = '+' :: line.drop 1 := by
  cases line with
  | nil => rw [startsWith] at h; simp [List.isPrefixOf] at h
  | cons c t =>
    have hc : '+' = c := by
      rw [startsWith, show "+".toList = ['+'] from rfl] at h
      simp only [List.isPrefixOf, Bool.and_eq_true, beq_iff_eq] at h
      exact h.1
    rw [← hc]
    simp

/-- Lines appended by the copy-before-hunk loop come from the original. -/
lemma copyLoop_lines (O : List Line) :
    ∀ (n idx : Nat) (res res' : List Line) (k : Nat),
      copyLoop O idx res n = .ok (res', k) →
      ∀ l ∈ res', l ∈ res ∨ l ∈ O := by
  intro n
  induction n with
  | zero =>
    intro idx res res' k h l hl
    rw [copyLoop] at h
    simp only [Except.ok.injEq, Prod.mk.injEq] at h
    rw [← h.1] at hl
    exact Or.inl hl
  | succ n ih =>
    intro idx res res' k h l hl
    rw [copyLoop] at h
    split at h
    next l0 heq =>
      rcases ih _ _ _ _ h l hl with hr | hO
      · rcases List.mem_append.mp hr with h2 | h2
        · exact Or.inl h2
        · rw [List.mem_singleton.mp h2]
          exact Or.inr (List.get?_mem heq)
      · exact Or.inr hO
    next heq => exact Except.noConfusion h

/-- On success, every output line of `applyAux` came from the accumulated
result, from the original, or is the payload of an insertion line of the
remaining patch. -/
lemma applyAux_ok_mem (O : List Line) :
    ∀ (p : List Line) (b : Bool) (idx : Nat) (res out : List Line) (k : Nat),
      applyAux O b idx res p = .ok (out, k) →
      ∀ l ∈ out, l ∈ res ∨ l ∈ O ∨ ('+' :: l) ∈ p := by
  intro p
  induction p with
  | nil =>
    intro b idx res out k h l hl
    rw [applyAux_nil] at h
    simp only [Except.ok.injEq, Prod.mk.injEq] at h
    rw [← h.1] at hl
    rcases List.mem_append.mp hl with hr | hd
    · exact Or.inl hr
    · exact Or.inr (Or.inl (List.mem_of_mem_drop hd))
  | cons line rest ih =>
    intro b idx res out k h l hl
    have weaken : l ∈ res ∨ l ∈ O ∨ ('+' :: l) ∈ rest →
        l ∈ res ∨ l ∈ O ∨ ('+' :: l) ∈ line :: rest := by
      rintro (h1 | h1 | h1)
      · exact Or.inl h1
      · exact Or.inr (Or.inl h1)
      · exact Or.inr (Or.inr (List.mem_cons_of_mem _ h1))
    simp only [applyAux] at h
    split at h
    · exact weaken (ih _ _ _ _ _ h l hl)
    · split at h
      · -- hunk start
        split at h
        · exact Except.noConfusion h
        · split at h
          next e heq => exact Except.noConfusion h
          next res1 idx1 heq =>
            rcases ih _ _ _ _ _ h l hl with h1 | h1 | h1
            · rcases copyLoop_lines O _ _ _ _ _ heq l h1 with h2 | h2
              · exact Or.inl h2
              · exact Or.inr (Or.inl h2)
            · exact Or.inr (Or.inl h1)
            · exact Or.inr (Or.inr (List.mem_cons_of_mem _ h1))
      · split at h
        · -- hunk body
          split at h
          · -- context line
            split at h
            next ol heq =>
              split at h
              · rcases ih _ _ _ _ _ h l hl with h1 | h1 | h1
                · rcases List.mem_append.mp h1 with h2 | h2
                  · exact Or.inl h2
                  · rw [List.mem_singleton.mp h2]
                    exact Or.inr (Or.inl (List.get?_mem heq))
                · exact Or.inr (Or.inl h1)
                · exact Or.inr (Or.inr (List.mem_cons_of_mem _ h1))
              · exact Except.noConfusion h
            next heq => exact Except.noConfusion h
          · split at h
            · -- deletion line
              split at h
              next ol heq =>
                split at h
                · exact weaken (ih _ _ _ _ _ h l hl)
                · exact Except.noConfusion h
              next heq => exact Except.noConfusion h
            · split at h
              · -- insertion line
                rename_i hplus
                rcases ih _ _ _ _ _ h l hl with h1 | h1 | h1
                · rcases List.mem_append.mp h1 with h2 | h2
                  · exact Or.inl h2
                  · right; right
                    rw [List.mem_singleton.mp h2, ← startsWith_plus_shape hplus]
                    exact List.mem_cons_self line rest
                · exact Or.inr (Or.inl h1)
                · exact Or.inr (Or.inr (List.mem_cons_of_mem _ h1))
              · exact Except.noConfusion h
        · exact Except.noConfusion h

/-- C9: whenever `apply_patch` succeeds, every line of the result either is
a line of the original sequence (copy-before-hunk, context match, or tail
copy) or is the payload of an insertion line of the patch (the text after
its leading `+`, i.e. the whole patch line is `'+' :: l`). -/
theorem result_lines_provenance (O patch out : List Line)
    (h : apply_patch O patch = .ok out) :
    ∀ l ∈ out, l ∈ O ∨ ('+' :: l) ∈ patch := by
  rw [apply_patch] at h
  obtain ⟨⟨out', k⟩, happ, hfst⟩ :
      ∃ pr, applyAux O false 0 [] patch = .ok pr ∧ pr.1 = out := by
    cases ha : applyAux O false 0 [] patch with
    | error e => rw [ha] at h; exact Except.noConfusion h
    | ok pr => rw [ha] at h; exact ⟨pr, rfl, by simpa [Except.map] using h⟩
  have hfst' : out' = out := hfst
  intro l hl
  rcases applyAux_ok_mem O patch false 0 [] out' k happ l (hfst' ▸ hl) with
    h1 | h1 | h1
  · exact absurd h1 (List.not_mem_nil l)
  · exact Or.inl h1
  · exact Or.inr h1

/-- Witness for C9 at a concrete input: the line `B\n` of the result of the
C8 scenario is the payload of the insertion line `+B\n` of the patch. -/
theorem result_lines_provenance_witness :
    "B\n".toList ∈ (["a\n".toList, "b\n".toList, "c\n".toList] : List Line) ∨
      ('+' :: "B\n".toList) ∈
        ["@@ -1,3 +1,3 @@\n".toList, " a\n".toList, "-b\n".toList,
          "+B\n".toList, " c\n".toList] :=
  result_lines_provenance ["a\n".toList, "b\n".toList, "c\n".toList]
    ["@@ -1,3 +1,3 @@\n".toList, " a\n".toList, "-b\n".toList,
      "+B\n".toList, " c\n".toList]
    ["a\n".toList, "B\n".toList, "c\n".toList] (by decide)
    "B\n".toList (by decide)

/-- Witness for C6 at a concrete input. -/
theorem tail_preservation_witness :
    ∃ k pre,
      applyAux ["a\n".toList, "b\n".toList] false 0 []
          ["@@ -1,1 +1,1 @@\n".toList, " a\n".toList] =
        .ok (["a\n".toList, "b\n".toList], k) ∧
      ["a\n".toList, "b\n".toList] =
        pre ++ (["a\n".toList, "b\n".toList] : List Line).drop k :=
  tail_preservation ["a\n".toList, "b\n".toList]
    ["@@ -1,1 +1,1 @@\n".toList, " a\n".toList]
    ["a\n".toList, "b\n".toList] (by decide)
